import Mathlib

/-!
Verification of the Viterbi reference model (`ReferenceModel.py`).

Modelling conventions:
* `np.float32` values are modelled at two levels.  At the codec level
  (`hex_to_float`, the `is_float` branch of `write_output_val`) a float32
  value is identified with its 32-bit IEEE-754 bit pattern, a `Nat` below
  `2 ^ 32`; the `struct.pack` / `struct.unpack` reinterpretations are the
  identity on bit patterns.  Inside the decoder the log-probability scores
  are modelled exactly, as `WithBot Int`, with `⊥` playing the role of
  `-inf` (the claims under study are structural — argmax selection,
  tie-breaking, backtrace, stream protocol — and do not depend on float
  rounding; `⊥ + x = x + ⊥ = ⊥` mirrors `-inf + finite = -inf`).
* Python lists holding the transition and emission matrices are modelled
  as total functions `Int → Int → Score` (the loader guarantees the
  shapes; all accesses made by the decoder on in-range observation
  symbols use non-negative indices).
* File I/O is abstracted to a list of stripped input lines and a list of
  output lines; a run that Python would abort with an uncaught exception
  is modelled as `none`.
-/

/-! ### Scores and matrices -/

/-- A float32 log-probability score: an exact value, or `⊥` for `-inf`. -/
abbrev Score := WithBot Int

/-- A model matrix (transition or emission), as a total table. -/
abbrev Mat := Int → Int → Score

/-! ### Bit-exact codec: `hex_to_float` (ReferenceModel.py lines 6-13) and
the `is_float` branch of `write_output_val` (lines 16-25). -/

/-- Value of one hexadecimal digit character, as accepted by Python
`int(-, 16)` (both cases of letters). -/
def hexDigitVal (c : Char) : Option Nat :=
  if '0' ≤ c ∧ c ≤ '9' then some (c.toNat - 48)
  else if 'a' ≤ c ∧ c ≤ 'f' then some (c.toNat - 87)
  else if 'A' ≤ c ∧ c ≤ 'F' then some (c.toNat - 55)
  else none

/-- One step of Python `int(-, 16)` digit accumulation. -/
def hexFoldStep (acc : Option Nat) (c : Char) : Option Nat :=
  match acc, hexDigitVal c with
  | some a, some d => some (16 * a + d)
  | _, _ => none

/-- Parse a non-empty all-hex-digit run of characters. -/
def parseHexDigits (l : List Char) : Option Nat :=
  if l = [] then none else l.foldl hexFoldStep (some 0)

/-- Strip an optional leading sign, as Python `int` does. -/
def dropSign (l : List Char) : Int × List Char :=
  match l with
  | [] => (1, [])
  | c :: r => if c = '-' then (-1, r) else if c = '+' then (1, r) else (1, c :: r)

/-- Strip an optional `0x` / `0X` base marker, as Python `int(-, 16)` does. -/
def drop0x (l : List Char) : List Char :=
  match l with
  | c0 :: c1 :: r => if c0 = '0' ∧ (c1 = 'x' ∨ c1 = 'X') then r else c0 :: c1 :: r
  | l => l

/-- Python `int(hex_str, 16)` on an already-stripped token (underscore
digit grouping is not modelled; it is irrelevant to every claim). -/
def parsePyHex (s : String) : Option Int :=
  let p := dropSign s.toList
  (parseHexDigits (drop0x p.2)).map (fun v => p.1 * (v : Int))

/-- The body of `hex_to_float` before the `except` clause:
`int(hex_str, 16)` followed by `struct.pack('I', -)` — which demands
`0 ≤ v < 2 ^ 32` and raises otherwise — and the bit reinterpretation
(the identity on bit patterns in this model). -/
def hexToFloatAttempt (s : String) : Option Nat :=
  match parsePyHex s with
  | none => none
  | some v => if 0 ≤ v ∧ v < 2 ^ 32 then some v.toNat else none

/-- `hex_to_float` (lines 6-13): the `except` clause prints the error and
returns `np.float32(0.0)`, whose bit pattern is `0`. -/
def hex_to_float (s : String) : Nat :=
  (hexToFloatAttempt s).getD 0

/-- The character Python's `{:X}` format uses for the digit `d < 16`. -/
def hexDigitCharUpper (d : Nat) : Char :=
  if d < 10 then Char.ofNat (48 + d) else Char.ofNat (55 + d)

/-- The `k` low-order hex digits of `b`, most significant first:
for `b < 16 ^ k` this is exactly Python's `f"{b:0kX}"`. -/
def hexChars : Nat → Nat → List Char
  | 0, _ => []
  | k + 1, b => hexChars k (b / 16) ++ [hexDigitCharUpper (b % 16)]

/-- The `is_float` branch of `write_output_val` (lines 16-22): render the
bit pattern of a float32 value as `f"{hex_val:08X}"`. -/
def float_hex_digits (b : Nat) : String :=
  String.mk (hexChars 8 b)

/-! ### Codec lemmas -/

theorem hexDigitVal_upper : ∀ d, d < 16 → hexDigitVal (hexDigitCharUpper d) = some d := by
  decide

theorem hexChars_length : ∀ (k b : Nat), (hexChars k b).length = k := by
  intro k
  induction k with
  | zero => intro b; rfl
  | succ k ih => intro b; simp [hexChars, ih]

theorem foldl_hexChars : ∀ (k b a : Nat), b < 16 ^ k →
    (hexChars k b).foldl hexFoldStep (some a) = some (a * 16 ^ k + b) := by
  intro k
  induction k with
  | zero =>
    intro b a hb
    have hb0 : b = 0 := by
      have : (16 : Nat) ^ 0 = 1 := by norm_num
      omega
    subst hb0
    simp [hexChars]
  | succ k ih =>
    intro b a hb
    have hdiv : b / 16 < 16 ^ k := by
      rw [Nat.div_lt_iff_lt_mul (by norm_num : (0:Nat) < 16)]
      calc b < 16 ^ (k + 1) := hb
        _ = 16 ^ k * 16 := by ring
    rw [hexChars, List.foldl_append, ih (b / 16) a hdiv]
    have hmod : b % 16 < 16 := Nat.mod_lt _ (by norm_num)
    simp only [List.foldl, hexFoldStep, hexDigitVal_upper (b % 16) hmod]
    congr 1
    have hdm : 16 * (b / 16) + b % 16 = b := Nat.div_add_mod b 16
    calc 16 * (a * 16 ^ k + b / 16) + b % 16
        = a * (16 ^ k * 16) + (16 * (b / 16) + b % 16) := by ring
      _ = a * 16 ^ (k + 1) + b := by rw [hdm, pow_succ]

theorem parseHexDigits_hexChars (b : Nat) (hb : b < 2 ^ 32) :
    parseHexDigits (hexChars 8 b) = some b := by
  have h16 : b < 16 ^ 8 := by norm_num at hb ⊢; exact hb
  have hne : hexChars 8 b ≠ [] := by
    intro h
    have := hexChars_length 8 b
    rw [h] at this
    simp at this
  rw [parseHexDigits, if_neg hne, foldl_hexChars 8 b 0 h16]
  simp

theorem hexChars_mem : ∀ (k b : Nat) (c : Char), c ∈ hexChars k b →
    ∃ d, d < 16 ∧ c = hexDigitCharUpper d := by
  intro k
  induction k with
  | zero => intro b c h; simp [hexChars] at h
  | succ k ih =>
    intro b c h
    rw [hexChars] at h
    rcases List.mem_append.1 h with h1 | h2
    · exact ih _ _ h1
    · exact ⟨b % 16, Nat.mod_lt _ (by norm_num), by simpa using h2⟩

theorem hexDigitCharUpper_not_special : ∀ d, d < 16 →
    hexDigitCharUpper d ≠ '-' ∧ hexDigitCharUpper d ≠ '+' ∧
    hexDigitCharUpper d ≠ 'x' ∧ hexDigitCharUpper d ≠ 'X' := by
  decide

theorem parsePyHex_hexChars (b : Nat) (hb : b < 2 ^ 32) :
    parsePyHex (float_hex_digits b) = some (b : Int) := by
  have hlist : (float_hex_digits b).toList = hexChars 8 b := rfl
  have hlen := hexChars_length 8 b
  rcases hcs : hexChars 8 b with _ | ⟨c0, tail⟩
  · rw [hcs] at hlen; simp at hlen
  · rcases tail with _ | ⟨c1, rest⟩
    · rw [hcs] at hlen; simp at hlen
    · have hc0 : c0 ∈ hexChars 8 b := by rw [hcs]; exact List.mem_cons_self _ _
      have hc1 : c1 ∈ hexChars 8 b := by
        rw [hcs]; exact List.mem_cons_of_mem _ (List.mem_cons_self _ _)
      obtain ⟨d0, hd0, hc0e⟩ := hexChars_mem 8 b c0 hc0
      obtain ⟨d1, hd1, hc1e⟩ := hexChars_mem 8 b c1 hc1
      obtain ⟨hm0, hp0, _, _⟩ := hc0e ▸ hexDigitCharUpper_not_special d0 hd0
      obtain ⟨_, _, hx1, hX1⟩ := hc1e ▸ hexDigitCharUpper_not_special d1 hd1
      rw [parsePyHex, hlist, hcs]
      have hsign : dropSign (c0 :: c1 :: rest) = (1, c0 :: c1 :: rest) := by
        rw [dropSign, if_neg hm0, if_neg hp0]
      have h0x : drop0x (c0 :: c1 :: rest) = c0 :: c1 :: rest := by
        rw [drop0x, if_neg]
        rintro ⟨-, hx | hX⟩
        · exact hx1 hx
        · exact hX1 hX
      rw [hsign]
      simp only [h0x]
      rw [← hcs, parseHexDigits_hexChars b hb]
      simp

/-- Claim C5: for every representable single-precision value — i.e. every
32-bit IEEE-754 bit pattern, including those of ±infinity, NaNs,
subnormals and negative zero — re-decoding the 8-hex-digit rendering
produced by `write_output_val` gives back the identical bit pattern. -/
theorem c5_roundtrip (b : Nat) (hb : b < 2 ^ 32) :
    hex_to_float (float_hex_digits b) = b := by
  have h1 : (0 : Int) ≤ (b : Int) := Int.ofNat_nonneg b
  have h2 : (b : Int) < 2 ^ 32 := by exact_mod_cast hb
  rw [hex_to_float]
  simp only [hexToFloatAttempt, parsePyHex_hexChars b hb, if_pos (And.intro h1 h2)]
  simp

/-- Witness for C5 at the bit pattern of `-inf` (`FF800000`). -/
theorem c5_witness : hex_to_float (float_hex_digits 4286578688) = 4286578688 :=
  c5_roundtrip 4286578688 (by norm_num)

/-- Claim C4, counterexample: on the malformed token `"ZZZZZZZZ"` the
conversion attempt fails, yet `hex_to_float` does not propagate any
failure — it silently returns the bit pattern of `0.0`.  The claim that a
`MalformedHexError` is raised (never substituting `0.0`) is therefore
false of the code. -/
theorem c4_counterexample :
    hexToFloatAttempt "ZZZZZZZZ" = none ∧ hex_to_float "ZZZZZZZZ" = 0 := by
  constructor
  · rfl
  · rfl

/-- Claim C4, amended: whenever the token is not a valid hexadecimal
integer representable in 32 bits (the conversion attempt fails),
`hex_to_float` catches the error and returns `0.0` (bit pattern `0`)
instead of raising. -/
theorem c4_amended (s : String) (h : hexToFloatAttempt s = none) :
    hex_to_float s = 0 := by
  rw [hex_to_float, h]
  rfl

/-- Witness for the amended C4 at the spec's own example token. -/
theorem c4_witness :
    hexToFloatAttempt "ZZZZZZZZ" = none ∧ hex_to_float "ZZZZZZZZ" = 0 :=
  ⟨by rfl, c4_amended "ZZZZZZZZ" (by rfl)⟩

/-! ### Viterbi decoder: `run_viterbi` (ReferenceModel.py lines 27-85) -/

/-- The argmax scan used by the decoder (lines 56-64 for the recurrence,
lines 71-76 for the termination step): starting from
`max_prob = -inf, max_state = 0`, scan `i = 0 .. n-1` and update both on a
strict `>` comparison. -/
def argmaxFold (c : Nat → Score) (n : Nat) : Score × Nat :=
  (List.range n).foldl (fun acc i => if acc.1 < c i then (c i, i) else acc) ((⊥ : Score), 0)

/-- Initialization row (lines 41-50): `V[0][j] = a[0][j] + b[j][o0 - 1]`. -/
def initRow (a bm : Mat) (o0 : Int) : Nat → Score :=
  fun j => a 0 (j : Int) + bm (j : Int) (o0 - 1)

/-- Candidate scores scanned by the inner loop at state `j` (line 61):
`V[t-1][i] + a[i+1][j]`. -/
def cands (a : Mat) (v : Nat → Score) (j : Nat) : Nat → Score :=
  fun i => v i + a ((i : Int) + 1) (j : Int)

/-- One recurrence row of `V` (line 67): `V[t][j] = max_prob + b[j][ot - 1]`. -/
def stepV (n : Nat) (a bm : Mat) (v : Nat → Score) (ot : Int) : Nat → Score :=
  fun j => (argmaxFold (cands a v j) n).1 + bm (j : Int) (ot - 1)

/-- One recurrence row of `B` (line 68): `B[t][j] = max_state`. -/
def stepB (n : Nat) (a : Mat) (v : Nat → Score) : Nat → Nat :=
  fun j => (argmaxFold (cands a v j) n).2

/-- Rows `(V[t], B[t])` for `t = 1, 2, …`, given the previous `V` row. -/
def dpRest (n : Nat) (a bm : Mat) : (Nat → Score) → List Int → List ((Nat → Score) × (Nat → Nat))
  | _, [] => []
  | v, o :: os => (stepV n a bm v o, stepB n a v) :: dpRest n a bm (stepV n a bm v o) os

/-- All rows `(V[t], B[t])` for `t = 0 .. T-1` (`B[0][j] = 0`, line 50). -/
def dpRows (n : Nat) (a bm : Mat) : List Int → List ((Nat → Score) × (Nat → Nat))
  | [] => []
  | o0 :: os => (initRow a bm o0, fun _ => 0) :: dpRest n a bm (initRow a bm o0) os

/-- Out-of-range row fallback (never read on in-range indices). -/
def dRow : (Nat → Score) × (Nat → Nat) := (fun _ => (⊥ : Score), fun _ => 0)

/-- The decoder's DP probability table: `V[t][j]`. -/
def vTab (n : Nat) (a bm : Mat) (obs : List Int) (t j : Nat) : Score :=
  ((dpRows n a bm obs).getD t dRow).1 j

/-- The decoder's backtrace pointer table: `B[t][j]`. -/
def bTab (n : Nat) (a bm : Mat) (obs : List Int) (t j : Nat) : Nat :=
  ((dpRows n a bm obs).getD t dRow).2 j

/-- Backtrace (lines 78-83), from the last timestep backwards: given the
`B` rows for times `T-1, T-2, …, 1` and the 1-indexed state `s` chosen at
the latest time, produce `path[T-1], path[T-2], …, path[0]` via
`path[t] = B[t+1][path[t+1] - 1] + 1`. -/
def backtraceRev : List (Nat → Nat) → Nat → List Nat
  | [], s => [s]
  | r :: rest, s => s :: backtraceRev rest (r (s - 1) + 1)

/-- `run_viterbi` (lines 27-85).  An empty sequence returns an empty path
and `-inf` (lines 32-34).  Otherwise build the DP rows, pick the final
state by the same strict-`>` scan over `V[T-1]` (lines 70-76), and
backtrace (lines 78-85), returning the 1-indexed path and the final
probability. -/
def run_viterbi (n m : Nat) (a bm : Mat) (obs : List Int) : List Nat × Score :=
  match obs with
  | [] => ([], (⊥ : Score))
  | o0 :: os =>
      ((backtraceRev (((dpRows n a bm (o0 :: os)).map Prod.snd).reverse.dropLast)
          ((argmaxFold ((dpRows n a bm (o0 :: os)).getD ((o0 :: os).length - 1) dRow).1 n).2 + 1)).reverse,
        (argmaxFold ((dpRows n a bm (o0 :: os)).getD ((o0 :: os).length - 1) dRow).1 n).1)

/-! ### Properties of the argmax scan -/

theorem argmaxFold_succ (c : Nat → Score) (n : Nat) :
    argmaxFold c (n + 1) =
      (if (argmaxFold c n).1 < c n then (c n, n) else argmaxFold c n) := by
  unfold argmaxFold
  rw [List.range_succ, List.foldl_append]
  rfl

theorem argmaxFold_spec (c : Nat → Score) (n : Nat) :
    (∀ i, i < n → c i ≤ (argmaxFold c n).1) ∧
    ((argmaxFold c n).1 = ⊥ → (argmaxFold c n).2 = 0) ∧
    ((argmaxFold c n).1 ≠ ⊥ → (argmaxFold c n).2 < n ∧
      c (argmaxFold c n).2 = (argmaxFold c n).1 ∧
      ∀ i, i < (argmaxFold c n).2 → c i < (argmaxFold c n).1) := by
  induction n with
  | zero =>
    refine ⟨by omega, fun _ => rfl, fun h => absurd rfl h⟩
  | succ n ih =>
    rw [argmaxFold_succ]
    obtain ⟨hle, hbot, hnb⟩ := ih
    by_cases hlt : (argmaxFold c n).1 < c n
    · rw [if_pos hlt]
      refine ⟨?_, ?_, ?_⟩
      · intro i hi
        rcases Nat.lt_succ_iff_lt_or_eq.1 hi with hi2 | rfl
        · exact (hle i hi2).trans hlt.le
        · exact le_rfl
      · intro h
        have hcn : c n = ⊥ := h
        rw [hcn] at hlt
        exact absurd hlt not_lt_bot
      · intro _
        refine ⟨Nat.lt_succ_self n, rfl, ?_⟩
        intro i hi
        exact lt_of_le_of_lt (hle i hi) hlt
    · rw [if_neg hlt]
      have hcn : c n ≤ (argmaxFold c n).1 := not_lt.1 hlt
      refine ⟨?_, hbot, ?_⟩
      · intro i hi
        rcases Nat.lt_succ_iff_lt_or_eq.1 hi with hi2 | rfl
        · exact hle i hi2
        · exact hcn
      · intro h
        obtain ⟨h1, h2, h3⟩ := hnb h
        exact ⟨h1.trans (Nat.lt_succ_self n), h2, h3⟩

theorem argmaxFold_le (c : Nat → Score) (n : Nat) :
    ∀ i, i < n → c i ≤ (argmaxFold c n).1 :=
  (argmaxFold_spec c n).1

theorem argmaxFold_lt (c : Nat → Score) (n : Nat) (hn : 1 ≤ n) :
    (argmaxFold c n).2 < n := by
  rcases eq_or_ne (argmaxFold c n).1 ⊥ with h | h
  · rw [(argmaxFold_spec c n).2.1 h]; omega
  · exact ((argmaxFold_spec c n).2.2 h).1

theorem argmaxFold_attains (c : Nat → Score) (n : Nat) (hn : 1 ≤ n) :
    c (argmaxFold c n).2 = (argmaxFold c n).1 := by
  rcases eq_or_ne (argmaxFold c n).1 ⊥ with h | h
  · rw [(argmaxFold_spec c n).2.1 h, h]
    exact le_bot_iff.1 (h ▸ argmaxFold_le c n 0 hn)
  · exact ((argmaxFold_spec c n).2.2 h).2.1

theorem argmaxFold_least (c : Nat → Score) (n : Nat) :
    ∀ i, i < (argmaxFold c n).2 → c i < c (argmaxFold c n).2 := by
  intro i hi
  rcases eq_or_ne (argmaxFold c n).1 ⊥ with h | h
  · rw [(argmaxFold_spec c n).2.1 h] at hi; omega
  · obtain ⟨-, h2, h3⟩ := (argmaxFold_spec c n).2.2 h
    rw [h2]
    exact h3 i hi

theorem argmaxFold_allBot (c : Nat → Score) (n : Nat)
    (hall : ∀ i, i < n → ¬ ((⊥ : Score) < c i)) : (argmaxFold c n).2 = 0 := by
  rcases eq_or_ne (argmaxFold c n).1 ⊥ with h | h
  · exact (argmaxFold_spec c n).2.1 h
  · obtain ⟨h1, h2, -⟩ := (argmaxFold_spec c n).2.2 h
    have hb : (⊥ : Score) < c (argmaxFold c n).2 := by
      rw [h2]
      exact bot_lt_iff_ne_bot.2 h
    exact absurd hb (hall _ h1)

/-! ### Structure of the DP tables -/

theorem dpRest_length (n : Nat) (a bm : Mat) :
    ∀ (os : List Int) (v : Nat → Score), (dpRest n a bm v os).length = os.length := by
  intro os
  induction os with
  | nil => intro v; rfl
  | cons o os ih => intro v; simp [dpRest, ih]

theorem dpRows_length (n : Nat) (a bm : Mat) (obs : List Int) :
    (dpRows n a bm obs).length = obs.length := by
  cases obs with
  | nil => rfl
  | cons o0 os => simp [dpRows, dpRest_length]

theorem dpRest_chain (n : Nat) (a bm : Mat) :
    ∀ (os : List Int) (v : Nat → Score) (k : Nat), k + 1 < os.length →
    (dpRest n a bm v os).getD (k + 1) dRow =
      (stepV n a bm ((dpRest n a bm v os).getD k dRow).1 (os.getD (k + 1) 0),
       stepB n a ((dpRest n a bm v os).getD k dRow).1) := by
  intro os
  induction os with
  | nil => intro v k h; simp at h
  | cons o os ih =>
    intro v k h
    cases k with
    | zero =>
      cases os with
      | nil => simp at h
      | cons o2 os2 => rfl
    | succ k2 =>
      have h2 : k2 + 1 < os.length := by
        simp only [List.length_cons] at h
        omega
      simp only [dpRest, List.getD_cons_succ]
      exact ih (stepV n a bm v o) k2 h2

theorem dpRows_chain (n : Nat) (a bm : Mat) (obs : List Int) (t : Nat)
    (h : t + 1 < obs.length) :
    (dpRows n a bm obs).getD (t + 1) dRow =
      (stepV n a bm ((dpRows n a bm obs).getD t dRow).1 (obs.getD (t + 1) 0),
       stepB n a ((dpRows n a bm obs).getD t dRow).1) := by
  cases obs with
  | nil => simp at h
  | cons o0 os =>
    cases t with
    | zero =>
      cases os with
      | nil => simp at h
      | cons o2 os2 => rfl
    | succ t2 =>
      have h2 : t2 + 1 < os.length := by
        simp only [List.length_cons] at h
        omega
      simp only [dpRows, List.getD_cons_succ]
      exact dpRest_chain n a bm os (initRow a bm o0) t2 h2

theorem vTab_zero (n : Nat) (a bm : Mat) (o0 : Int) (os : List Int) (j : Nat) :
    vTab n a bm (o0 :: os) 0 j = a 0 (j : Int) + bm (j : Int) (o0 - 1) := rfl

theorem bTab_zero (n : Nat) (a bm : Mat) (o0 : Int) (os : List Int) (j : Nat) :
    bTab n a bm (o0 :: os) 0 j = 0 := rfl

theorem vTab_succ (n : Nat) (a bm : Mat) (obs : List Int) (t j : Nat)
    (h : t + 1 < obs.length) :
    vTab n a bm obs (t + 1) j =
      (argmaxFold (cands a (fun i => vTab n a bm obs t i) j) n).1 +
        bm (j : Int) (obs.getD (t + 1) 0 - 1) := by
  unfold vTab
  rw [dpRows_chain n a bm obs t h]
  rfl

theorem bTab_succ (n : Nat) (a bm : Mat) (obs : List Int) (t j : Nat)
    (h : t + 1 < obs.length) :
    bTab n a bm obs (t + 1) j =
      (argmaxFold (cands a (fun i => vTab n a bm obs t i) j) n).2 := by
  unfold bTab
  rw [dpRows_chain n a bm obs t h]
  rfl

theorem dpRest_snd_lt (n : Nat) (a bm : Mat) (hn : 1 ≤ n) :
    ∀ (os : List Int) (v : Nat → Score) (row : (Nat → Score) × (Nat → Nat)),
      row ∈ dpRest n a bm v os → ∀ j, row.2 j < n := by
  intro os
  induction os with
  | nil => intro v row h; simp [dpRest] at h
  | cons o os ih =>
    intro v row h j
    simp only [dpRest, List.mem_cons] at h
    rcases h with rfl | h
    · exact argmaxFold_lt (cands a v j) n hn
    · exact ih (stepV n a bm v o) row h j

theorem dpRows_snd_lt (n : Nat) (a bm : Mat) (obs : List Int) (hn : 1 ≤ n) :
    ∀ row ∈ dpRows n a bm obs, ∀ j, row.2 j < n := by
  cases obs with
  | nil => intro row h; simp [dpRows] at h
  | cons o0 os =>
    intro row h j
    simp only [dpRows, List.mem_cons] at h
    rcases h with rfl | h
    · exact hn
    · exact dpRest_snd_lt n a bm hn os (initRow a bm o0) row h j

/-! ### Structure of the backtrace -/

theorem backtraceRev_length :
    ∀ (l : List (Nat → Nat)) (s : Nat), (backtraceRev l s).length = l.length + 1 := by
  intro l
  induction l with
  | nil => intro s; rfl
  | cons r rest ih => intro s; simp [backtraceRev, ih]

theorem backtraceRev_getD_zero (l : List (Nat → Nat)) (s : Nat) :
    (backtraceRev l s).getD 0 0 = s := by
  cases l <;> rfl

theorem backtraceRev_getD_succ :
    ∀ (l : List (Nat → Nat)) (s k : Nat), k < l.length →
    (backtraceRev l s).getD (k + 1) 0 =
      (l.getD k (fun _ => 0)) ((backtraceRev l s).getD k 0 - 1) + 1 := by
  intro l
  induction l with
  | nil => intro s k h; simp at h
  | cons r rest ih =>
    intro s k h
    cases k with
    | zero =>
      exact backtraceRev_getD_zero rest (r (s - 1) + 1)
    | succ k2 =>
      have h2 : k2 < rest.length := by
        simp only [List.length_cons] at h
        omega
      simp only [backtraceRev, List.getD_cons_succ]
      exact ih (r (s - 1) + 1) k2 h2

theorem backtraceRev_bounds (n : Nat) :
    ∀ (l : List (Nat → Nat)) (s : Nat), 1 ≤ s → s ≤ n →
      (∀ r ∈ l, ∀ x, r x < n) → ∀ e ∈ backtraceRev l s, 1 ≤ e ∧ e ≤ n := by
  intro l
  induction l with
  | nil =>
    intro s h1 h2 _ e he
    simp only [backtraceRev, List.mem_singleton] at he
    subst he
    exact ⟨h1, h2⟩
  | cons r rest ih =>
    intro s h1 h2 hr e he
    simp only [backtraceRev, List.mem_cons] at he
    rcases he with rfl | he
    · exact ⟨h1, h2⟩
    · refine ih (r (s - 1) + 1) (by omega) ?_ ?_ e he
      · have := hr r (List.mem_cons_self r rest) (s - 1)
        omega
      · intro r2 hr2 x
        exact hr r2 (List.mem_cons_of_mem r hr2) x

/-! ### List index bookkeeping -/

theorem getD_reverse (l : List α) (k : Nat) (d : α) (h : k < l.length) :
    l.reverse.getD k d = l.getD (l.length - 1 - k) d := by
  have h1 : k < l.reverse.length := by simpa using h
  have h2 : l.length - 1 - k < l.length := by omega
  rw [List.getD_eq_getElem l.reverse d h1, List.getD_eq_getElem l d h2]
  exact List.getElem_reverse h1

theorem getD_dropLast : ∀ (l : List α) (k : Nat) (d : α), k + 1 < l.length →
    l.dropLast.getD k d = l.getD k d := by
  intro l
  induction l with
  | nil => intro k d h; simp at h
  | cons a l ih =>
    intro k d h
    cases l with
    | nil => simp at h
    | cons b l2 =>
      cases k with
      | zero => rfl
      | succ k2 =>
        have h2 : k2 + 1 < (b :: l2).length := by
          simp only [List.length_cons] at h ⊢
          omega
        exact ih k2 d h2

theorem getD_map_snd (l : List ((Nat → Score) × (Nat → Nat))) (k : Nat)
    (h : k < l.length) :
    (l.map Prod.snd).getD k (fun _ => 0) = (l.getD k dRow).2 := by
  have h1 : k < (l.map Prod.snd).length := by simpa using h
  rw [List.getD_eq_getElem _ _ h1, List.getD_eq_getElem l dRow h]
  exact List.getElem_map Prod.snd

/-! ### Shape of a `run_viterbi` result -/

theorem run_viterbi_cons (n m : Nat) (a bm : Mat) (o0 : Int) (os : List Int) :
    run_viterbi n m a bm (o0 :: os) =
      ((backtraceRev (((dpRows n a bm (o0 :: os)).map Prod.snd).reverse.dropLast)
          ((argmaxFold ((dpRows n a bm (o0 :: os)).getD os.length dRow).1 n).2 + 1)).reverse,
        (argmaxFold ((dpRows n a bm (o0 :: os)).getD os.length dRow).1 n).1) := rfl

theorem revB_length (n : Nat) (a bm : Mat) (o0 : Int) (os : List Int) :
    (((dpRows n a bm (o0 :: os)).map Prod.snd).reverse.dropLast).length = os.length := by
  simp [dpRows_length]

theorem run_length (n m : Nat) (a bm : Mat) (o0 : Int) (os : List Int) :
    (run_viterbi n m a bm (o0 :: os)).1.length = os.length + 1 := by
  rw [run_viterbi_cons]
  simp only [List.length_reverse, backtraceRev_length, revB_length]

theorem run_viterbi_snd (n m : Nat) (a bm : Mat) (o0 : Int) (os : List Int) :
    (run_viterbi n m a bm (o0 :: os)).2 =
      (argmaxFold ((dpRows n a bm (o0 :: os)).getD os.length dRow).1 n).1 := rfl

theorem run_viterbi_path_getD (n m : Nat) (a bm : Mat) (o0 : Int) (os : List Int)
    (t : Nat) (ht : t ≤ os.length) :
    (run_viterbi n m a bm (o0 :: os)).1.getD t 0 =
      (backtraceRev (((dpRows n a bm (o0 :: os)).map Prod.snd).reverse.dropLast)
        ((argmaxFold ((dpRows n a bm (o0 :: os)).getD os.length dRow).1 n).2 + 1)).getD
        (os.length - t) 0 := by
  rw [run_viterbi_cons]
  rw [getD_reverse]
  · rw [backtraceRev_length, revB_length]
    have he : os.length + 1 - 1 - t = os.length - t := by omega
    rw [he]
  · rw [backtraceRev_length, revB_length]
    omega

theorem run_viterbi_last (n m : Nat) (a bm : Mat) (o0 : Int) (os : List Int) :
    (run_viterbi n m a bm (o0 :: os)).1.getD os.length 0 =
      (argmaxFold ((dpRows n a bm (o0 :: os)).getD os.length dRow).1 n).2 + 1 := by
  rw [run_viterbi_path_getD n m a bm o0 os os.length (Nat.le_refl _), Nat.sub_self,
    backtraceRev_getD_zero]

/-- Claim C6: for every model, decoding the empty observation sequence
returns an empty path and the log-probability `-inf` (`⊥`). -/
theorem c6_empty_sequence (n m : Nat) (a bm : Mat) :
    run_viterbi n m a bm [] = ([], (⊥ : Score)) := rfl

/-- Claim C7: for every decoded sequence — the single-element case
included — the returned path has exactly the length of the input
observation sequence. -/
theorem c7_path_length (n m : Nat) (a bm : Mat) (obs : List Int) :
    (run_viterbi n m a bm obs).1.length = obs.length := by
  cases obs with
  | nil => rfl
  | cons o0 os => exact run_length n m a bm o0 os

/-- Claim C1: for every model (with at least one state) and every
non-empty observation sequence over `[1, n_symbols]`, the decoder's DP
tables satisfy the spec's equations: at `t = 0`,
`V[0][j] = transition[0][j] + emission[j][symbol(0)-1]` and `B[0][j] = 0`;
and for `1 ≤ t < T`, `V[t][j]` is the maximum over `i` of
`V[t-1][i] + transition[i+1][j]`, plus `emission[j][symbol(t)-1]`, the
maximum being attained at `i = B[t][j]` (` B[t][j] < n`). -/
theorem c1_dp_equations (n m : Nat) (a bm : Mat) (obs : List Int)
    (hn : 1 ≤ n) (hobs : obs ≠ [])
    (hsym : ∀ o ∈ obs, 1 ≤ o ∧ o ≤ (m : Int)) :
    (∀ j, j < n → vTab n a bm obs 0 j = a 0 (j : Int) + bm (j : Int) (obs.getD 0 0 - 1) ∧
      bTab n a bm obs 0 j = 0) ∧
    (∀ t j, 1 ≤ t → t < obs.length → j < n →
      bTab n a bm obs t j < n ∧
      (∀ i, i < n →
        vTab n a bm obs (t - 1) i + a ((i : Int) + 1) (j : Int) ≤
          vTab n a bm obs (t - 1) (bTab n a bm obs t j) +
            a ((bTab n a bm obs t j : Int) + 1) (j : Int)) ∧
      vTab n a bm obs t j =
        (vTab n a bm obs (t - 1) (bTab n a bm obs t j) +
            a ((bTab n a bm obs t j : Int) + 1) (j : Int)) +
          bm (j : Int) (obs.getD t 0 - 1)) := by
  cases obs with
  | nil => exact absurd rfl hobs
  | cons o0 os =>
    constructor
    · intro j hj
      exact ⟨rfl, rfl⟩
    · intro t j ht1 ht2 hj
      obtain ⟨t2, rfl⟩ : ∃ t2, t = t2 + 1 := ⟨t - 1, by omega⟩
      have h : t2 + 1 < (o0 :: os).length := ht2
      have hb := bTab_succ n a bm (o0 :: os) t2 j h
      have hv := vTab_succ n a bm (o0 :: os) t2 j h
      have hatt := argmaxFold_attains (cands a (fun i => vTab n a bm (o0 :: os) t2 i) j) n hn
      have hle := argmaxFold_le (cands a (fun i => vTab n a bm (o0 :: os) t2 i) j) n
      have hlt := argmaxFold_lt (cands a (fun i => vTab n a bm (o0 :: os) t2 i) j) n hn
      simp only [Nat.add_sub_cancel]
      refine ⟨?_, ?_, ?_⟩
      · rw [hb]
        exact hlt
      · intro i hi
        have h1 := hle i hi
        rw [← hatt] at h1
        rw [hb]
        exact h1
      · rw [hv, ← hatt, hb]
        rfl

theorem mem_of_mem_dropLast : ∀ (l : List α) (x : α), x ∈ l.dropLast → x ∈ l := by
  intro l
  induction l with
  | nil => intro x h; simp at h
  | cons a l ih =>
    intro x h
    cases l with
    | nil => simp at h
    | cons b l2 =>
      have hd : (a :: b :: l2).dropLast = a :: (b :: l2).dropLast := rfl
      rw [hd] at h
      rcases List.mem_cons.1 h with rfl | h2
      · exact List.mem_cons_self _ _
      · exact List.mem_cons_of_mem _ (ih x h2)

/-- Claim C3: for every non-empty sequence, the returned log-probability
is `V[T-1][final_state]` where `final_state` is the lowest-index argmax
over `V[T-1]`; the returned path has `path[T-1] = final_state + 1` and
`path[t] = B[t+1][path[t+1] - 1] + 1` for `t = T-2 … 0` (all entries
1-indexed). -/
theorem c3_termination_backtrace (n m : Nat) (a bm : Mat) (obs : List Int)
    (hn : 1 ≤ n) (hobs : obs ≠ []) :
    ∃ fs, fs < n ∧
      (∀ j, j < n →
        vTab n a bm obs (obs.length - 1) j ≤ vTab n a bm obs (obs.length - 1) fs) ∧
      (∀ j, j < fs →
        vTab n a bm obs (obs.length - 1) j < vTab n a bm obs (obs.length - 1) fs) ∧
      (run_viterbi n m a bm obs).2 = vTab n a bm obs (obs.length - 1) fs ∧
      (run_viterbi n m a bm obs).1.length = obs.length ∧
      (run_viterbi n m a bm obs).1.getD (obs.length - 1) 0 = fs + 1 ∧
      (∀ t, t + 1 < obs.length →
        (run_viterbi n m a bm obs).1.getD t 0 =
          bTab n a bm obs (t + 1) ((run_viterbi n m a bm obs).1.getD (t + 1) 0 - 1) + 1) := by
  cases obs with
  | nil => exact absurd rfl hobs
  | cons o0 os =>
    simp only [List.length_cons, Nat.add_sub_cancel]
    refine ⟨(argmaxFold ((dpRows n a bm (o0 :: os)).getD os.length dRow).1 n).2,
      argmaxFold_lt _ n hn, ?_, ?_, ?_, run_length n m a bm o0 os,
      run_viterbi_last n m a bm o0 os, ?_⟩
    · intro j hj
      have h1 := argmaxFold_le ((dpRows n a bm (o0 :: os)).getD os.length dRow).1 n j hj
      have h2 := argmaxFold_attains ((dpRows n a bm (o0 :: os)).getD os.length dRow).1 n hn
      rw [← h2] at h1
      exact h1
    · intro j hj
      exact argmaxFold_least ((dpRows n a bm (o0 :: os)).getD os.length dRow).1 n j hj
    · rw [run_viterbi_snd]
      exact (argmaxFold_attains ((dpRows n a bm (o0 :: os)).getD os.length dRow).1 n hn).symm
    · intro t ht
      have ht1 : t ≤ os.length := by omega
      have ht2 : t + 1 ≤ os.length := by omega
      rw [run_viterbi_path_getD n m a bm o0 os t ht1,
        run_viterbi_path_getD n m a bm o0 os (t + 1) ht2]
      have hsplit : os.length - t = (os.length - (t + 1)) + 1 := by omega
      rw [hsplit]
      rw [backtraceRev_getD_succ _ _ (os.length - (t + 1)) (by rw [revB_length]; omega)]
      have hrev : (((dpRows n a bm (o0 :: os)).map Prod.snd).reverse.dropLast).getD
          (os.length - (t + 1)) (fun _ => 0) =
          ((dpRows n a bm (o0 :: os)).getD (t + 1) dRow).2 := by
        rw [getD_dropLast _ _ _ (by simp [dpRows_length]; omega)]
        rw [getD_reverse _ _ _ (by simp [dpRows_length]; omega)]
        rw [List.length_map, dpRows_length]
        have he : (o0 :: os).length - 1 - (os.length - (t + 1)) = t + 1 := by
          simp only [List.length_cons]
          omega
        rw [he]
        exact getD_map_snd _ (t + 1) (by rw [dpRows_length]; simp only [List.length_cons]; omega)
      rw [hrev]
      rfl

/-- Claim C2: every argmax the decoder takes — the predecessor choice
`B[t][j]` for `t ≥ 1` and the final-state choice over `V[T-1]` — keeps
the lowest index on ties (every earlier candidate is strictly below the
kept one), and keeps index `0` when no candidate compares strictly above
`-inf`. -/
theorem c2_tie_break (n m : Nat) (a bm : Mat) (obs : List Int)
    (hn : 1 ≤ n) (hobs : obs ≠ []) :
    (∀ t j, 1 ≤ t → t < obs.length → j < n →
      (∀ i, i < bTab n a bm obs t j →
        vTab n a bm obs (t - 1) i + a ((i : Int) + 1) (j : Int) <
          vTab n a bm obs (t - 1) (bTab n a bm obs t j) +
            a ((bTab n a bm obs t j : Int) + 1) (j : Int)) ∧
      ((∀ i, i < n →
          ¬ ((⊥ : Score) < vTab n a bm obs (t - 1) i + a ((i : Int) + 1) (j : Int))) →
        bTab n a bm obs t j = 0)) ∧
    (∃ fs, fs < n ∧
      (run_viterbi n m a bm obs).1.getD (obs.length - 1) 0 = fs + 1 ∧
      (run_viterbi n m a bm obs).2 = vTab n a bm obs (obs.length - 1) fs ∧
      (∀ j, j < fs →
        vTab n a bm obs (obs.length - 1) j < vTab n a bm obs (obs.length - 1) fs) ∧
      ((∀ j, j < n → ¬ ((⊥ : Score) < vTab n a bm obs (obs.length - 1) j)) → fs = 0)) := by
  cases obs with
  | nil => exact absurd rfl hobs
  | cons o0 os =>
    constructor
    · intro t j ht1 ht2 hj
      obtain ⟨t2, rfl⟩ : ∃ t2, t = t2 + 1 := ⟨t - 1, by omega⟩
      have h : t2 + 1 < (o0 :: os).length := ht2
      have hb := bTab_succ n a bm (o0 :: os) t2 j h
      simp only [Nat.add_sub_cancel]
      constructor
      · intro i hi
        rw [hb] at hi ⊢
        exact argmaxFold_least (cands a (fun i2 => vTab n a bm (o0 :: os) t2 i2) j) n i hi
      · intro hall
        rw [hb]
        exact argmaxFold_allBot (cands a (fun i2 => vTab n a bm (o0 :: os) t2 i2) j) n hall
    · simp only [List.length_cons, Nat.add_sub_cancel]
      refine ⟨(argmaxFold ((dpRows n a bm (o0 :: os)).getD os.length dRow).1 n).2,
        argmaxFold_lt _ n hn, run_viterbi_last n m a bm o0 os, ?_, ?_, ?_⟩
      · rw [run_viterbi_snd]
        exact (argmaxFold_attains ((dpRows n a bm (o0 :: os)).getD os.length dRow).1 n hn).symm
      · intro j hj
        exact argmaxFold_least ((dpRows n a bm (o0 :: os)).getD os.length dRow).1 n j hj
      · intro hall
        exact argmaxFold_allBot ((dpRows n a bm (o0 :: os)).getD os.length dRow).1 n hall

/-- Claim C10: for every model with at least one state and every
non-empty sequence over `[1, n_symbols]`, the backtrace pointers stored
in `B` all lie in `[0, n_states)` and every entry of the returned
(1-indexed) path lies in `[1, n_states]`. -/
theorem c10_path_range (n m : Nat) (a bm : Mat) (obs : List Int)
    (hn : 1 ≤ n) (hobs : obs ≠ [])
    (hsym : ∀ o ∈ obs, 1 ≤ o ∧ o ≤ (m : Int)) :
    (∀ t j, t < obs.length → j < n → bTab n a bm obs t j < n) ∧
    (∀ s ∈ (run_viterbi n m a bm obs).1, 1 ≤ s ∧ s ≤ n) := by
  cases obs with
  | nil => exact absurd rfl hobs
  | cons o0 os =>
    constructor
    · intro t j ht hj
      cases t with
      | zero => exact hn
      | succ t2 =>
        rw [bTab_succ n a bm (o0 :: os) t2 j ht]
        exact argmaxFold_lt _ n hn
    · intro s hs
      rw [run_viterbi_cons] at hs
      rw [List.mem_reverse] at hs
      refine backtraceRev_bounds n _ _ (by omega) ?_ ?_ s hs
      · have := argmaxFold_lt ((dpRows n a bm (o0 :: os)).getD os.length dRow).1 n hn
        omega
      · intro r hr x
        have hr2 := mem_of_mem_dropLast _ r hr
        rw [List.mem_reverse] at hr2
        obtain ⟨row, hrow, hreq⟩ := List.mem_map.1 hr2
        rw [← hreq]
        exact dpRows_snd_lt n a bm (o0 :: os) hn row hrow x

/-! ### Batch stream protocol: `main`'s read/write loop
(ReferenceModel.py lines 119-155) -/

/-- Value of one decimal digit character. -/
def decDigitVal (c : Char) : Option Nat :=
  if '0' ≤ c ∧ c ≤ '9' then some (c.toNat - 48) else none

/-- One step of Python `int(-)` decimal digit accumulation. -/
def decFoldStep (acc : Option Nat) (c : Char) : Option Nat :=
  match acc, decDigitVal c with
  | some a, some d => some (10 * a + d)
  | _, _ => none

/-- Parse a non-empty all-decimal-digit run of characters. -/
def parseDecDigits (l : List Char) : Option Nat :=
  if l = [] then none else l.foldl decFoldStep (some 0)

/-- Python `int(line)` on an already-stripped line: an optional sign
followed by decimal digits (underscore grouping not modelled).  `none`
models the uncaught `ValueError` that aborts the run. -/
def parsePyInt (s : String) : Option Int :=
  let p := dropSign s.toList
  (parseDecDigits p.2).map (fun v => p.1 * (v : Int))

/-- One output line, as produced by `write_output_val`: a decimal
integer line, a hex-rendered float32 line, or the literal sentinel
`"FFFFFFFF"` line. -/
inductive OutLine where
  | int (v : Int) : OutLine
  | float (v : Score) : OutLine
  | marker : OutLine
deriving DecidableEq

/-- The output block written for one decoded sequence (lines 131-139):
each path state as an integer line, then the final probability as a
float line, then the sentinel line. -/
def outBlock (n m : Nat) (a bm : Mat) (cur : List Int) : List OutLine :=
  (run_viterbi n m a bm cur).1.map (fun s => OutLine.int (s : Int)) ++
    [OutLine.float (run_viterbi n m a bm cur).2, OutLine.marker]

/-- The read/write loop of `main` (lines 119-155) over the stripped
input lines, carrying the `current_sequence` accumulator.  On the
sentinel, decode and emit the block, then read the next line: `"0"`
emits the final `"0"` line and stops (whatever remains unread);
otherwise that line starts the next sequence.  Away from the sentinel a
`"0"` line is skipped and any other line is parsed with `int(-)` and
appended; an unparsable line aborts the whole run (`none`).  Only
parse-time aborts are represented: since the matrices are total tables,
an indexing error that Python could raise inside `run_viterbi` when an
accumulated symbol is out of range is not modelled, so any statement
below that asserts a completed run is made only at an instance where
the Python run completes too. -/
def mainLoop (n m : Nat) (a bm : Mat) : List String → List Int → Option (List OutLine)
  | [], _ => some []
  | line :: rest, cur =>
    if line = "FFFFFFFF" then
      match rest with
      | [] => some (outBlock n m a bm cur)
      | next :: rest2 =>
        if next = "0" then some (outBlock n m a bm cur ++ [OutLine.int 0])
        else
          match parsePyInt next with
          | none => none
          | some v => (mainLoop n m a bm rest2 [v]).map (fun out => outBlock n m a bm cur ++ out)
    else if line = "0" then mainLoop n m a bm rest cur
    else
      match parsePyInt line with
      | none => none
      | some v => mainLoop n m a bm rest (cur ++ [v])

/-! ### Step lemmas for the stream loop -/

theorem mainLoop_nil (n m : Nat) (a bm : Mat) (cur : List Int) :
    mainLoop n m a bm [] cur = some [] := rfl

theorem mainLoop_pad (n m : Nat) (a bm : Mat) (rest : List String) (cur : List Int) :
    mainLoop n m a bm ("0" :: rest) cur = mainLoop n m a bm rest cur := by
  cases rest with
  | nil => simp [mainLoop]
  | cons a2 l => simp [mainLoop]

theorem mainLoop_tok (n m : Nat) (a bm : Mat) (s : String) (rest : List String)
    (cur : List Int) (v : Int) (h1 : s ≠ "FFFFFFFF") (h2 : s ≠ "0")
    (h3 : parsePyInt s = some v) :
    mainLoop n m a bm (s :: rest) cur = mainLoop n m a bm rest (cur ++ [v]) := by
  cases rest with
  | nil =>
    simp only [mainLoop]
    rw [if_neg h1, if_neg h2, h3]
  | cons a2 l =>
    simp only [mainLoop]
    rw [if_neg h1, if_neg h2, h3]

theorem mainLoop_tok_bad (n m : Nat) (a bm : Mat) (s : String) (rest : List String)
    (cur : List Int) (h1 : s ≠ "FFFFFFFF") (h3 : parsePyInt s = none) :
    mainLoop n m a bm (s :: rest) cur = none := by
  have h2 : s ≠ "0" := by
    intro h
    rw [h] at h3
    simp [parsePyInt, dropSign, parseDecDigits, decFoldStep, decDigitVal] at h3
  cases rest with
  | nil =>
    simp only [mainLoop]
    rw [if_neg h1, if_neg h2, h3]
  | cons a2 l =>
    simp only [mainLoop]
    rw [if_neg h1, if_neg h2, h3]

theorem mainLoop_sentinel_end (n m : Nat) (a bm : Mat) (cur : List Int) :
    mainLoop n m a bm ["FFFFFFFF"] cur = some (outBlock n m a bm cur) := by
  simp [mainLoop]

theorem mainLoop_sentinel_zero (n m : Nat) (a bm : Mat) (rest : List String)
    (cur : List Int) :
    mainLoop n m a bm ("FFFFFFFF" :: "0" :: rest) cur =
      some (outBlock n m a bm cur ++ [OutLine.int 0]) := by
  simp [mainLoop]

theorem mainLoop_sentinel_next (n m : Nat) (a bm : Mat) (next : String)
    (rest : List String) (cur : List Int) (v : Int) (h : next ≠ "0")
    (hv : parsePyInt next = some v) :
    mainLoop n m a bm ("FFFFFFFF" :: next :: rest) cur =
      (mainLoop n m a bm rest [v]).map (fun out => outBlock n m a bm cur ++ out) := by
  simp only [mainLoop]
  rw [if_true, if_neg h, hv]

/-- Claim C8: on the sentinel the accumulated sequence is emitted and the
accumulator cleared; the next line is then peeked — `"0"` writes one
final `"0"` line and stops regardless of any remaining input, any other
line starts the next sequence.  In particular the stream
`1,2,FFFFFFFF,1,FFFFFFFF,0` (with anything after it) yields exactly two
output blocks each ending in the sentinel, then a trailing `"0"` line
and nothing else. -/
theorem c8_batch_protocol (n m : Nat) (a bm : Mat) :
    (∀ rest cur, mainLoop n m a bm ("FFFFFFFF" :: "0" :: rest) cur =
      some (outBlock n m a bm cur ++ [OutLine.int 0])) ∧
    (∀ next rest cur v, next ≠ "0" → parsePyInt next = some v →
      mainLoop n m a bm ("FFFFFFFF" :: next :: rest) cur =
        (mainLoop n m a bm rest [v]).map (fun out => outBlock n m a bm cur ++ out)) ∧
    (∀ extra, mainLoop n m a bm (["1", "2", "FFFFFFFF", "1", "FFFFFFFF", "0"] ++ extra) [] =
      some (outBlock n m a bm [1, 2] ++ (outBlock n m a bm [1] ++ [OutLine.int 0]))) := by
  refine ⟨mainLoop_sentinel_zero n m a bm, ?_, ?_⟩
  · intro next rest cur v h hv
    exact mainLoop_sentinel_next n m a bm next rest cur v h hv
  · intro extra
    have p1 : parsePyInt "1" = some 1 := by decide
    have p2 : parsePyInt "2" = some 2 := by decide
    have hne1 : ("1" : String) ≠ "FFFFFFFF" := by decide
    have hne1z : ("1" : String) ≠ "0" := by decide
    have hne2 : ("2" : String) ≠ "FFFFFFFF" := by decide
    have hne2z : ("2" : String) ≠ "0" := by decide
    rw [show (["1", "2", "FFFFFFFF", "1", "FFFFFFFF", "0"] ++ extra) =
      "1" :: "2" :: "FFFFFFFF" :: "1" :: "FFFFFFFF" :: "0" :: extra from rfl]
    rw [mainLoop_tok n m a bm "1" _ [] 1 hne1 hne1z p1]
    rw [mainLoop_tok n m a bm "2" _ ([] ++ [1]) 2 hne2 hne2z p2]
    rw [mainLoop_sentinel_next n m a bm "1" _ (([] ++ [1]) ++ [2]) 1 hne1z p1]
    rw [mainLoop_sentinel_zero n m a bm extra [1]]
    rfl

/-- A trivial concrete one-state model (all log-probabilities `0`), used
to instantiate universally quantified theorems at concrete inputs. -/
def cMat : Mat := fun _ _ => (0 : Score)

/-- Witness for C8 at a concrete model and concrete streams. -/
theorem c8_witness :
    mainLoop 1 1 cMat cMat ["FFFFFFFF", "0"] [] =
      some (outBlock 1 1 cMat cMat [] ++ [OutLine.int 0]) ∧
    mainLoop 1 1 cMat cMat ["FFFFFFFF", "3"] [] =
      (mainLoop 1 1 cMat cMat [] [3]).map (fun out => outBlock 1 1 cMat cMat [] ++ out) ∧
    mainLoop 1 1 cMat cMat (["1", "2", "FFFFFFFF", "1", "FFFFFFFF", "0"] ++ ["9"]) [] =
      some (outBlock 1 1 cMat cMat [1, 2] ++ (outBlock 1 1 cMat cMat [1] ++ [OutLine.int 0])) :=
  ⟨(c8_batch_protocol 1 1 cMat cMat).1 [] [],
   (c8_batch_protocol 1 1 cMat cMat).2.1 "3" [] [] 3 (by decide) (by decide),
   (c8_batch_protocol 1 1 cMat cMat).2.2 ["9"]⟩

/-- Claim C9, counterexample: the line `"-5"` is not a valid positive
integer, yet `int(-)` parses it as the signed integer `-5`, which is
appended to the sequence, and with `N = 1, M = 6` and all-zero matrices
the run completes and emits a normal block.  Trace of the source at this
instance: after appending `-5`, the sentinel triggers `run_viterbi`,
which computes `obs_idx = -6` and reads `b_matrix[0][-6]` (line 48);
since `-6 ≥ -M`, Python's end-relative indexing resolves this to
`b_matrix[0][0] = 0.0` (no error, and equal to the total-table value the
model reads), giving `V[0][0] = 0.0`, final state `0`, path `[1]`,
probability `0.0`; the block `1, 00000000, FFFFFFFF` is written and the
loop ends at EOF.  So no failure is raised for this non-positive-integer
line, refuting the claim. -/
theorem c9_counterexample :
    parsePyInt "-5" = some (-5) ∧
    mainLoop 1 6 cMat cMat ["-5", "FFFFFFFF"] [] =
      some [OutLine.int 1, OutLine.float (0 : Score), OutLine.marker] := by
  constructor
  · decide
  · decide

/-- Claim C9 (amended, about the parsing step of the accumulation loop):
while accumulating, a `"0"` line that does not immediately follow a
sentinel is ignored; every other non-sentinel line is parsed by `int(-)`
as a decimal integer — possibly signed, so negative values are accepted
and appended rather than rejected — and the scan aborts at that line
(uncaught `ValueError`) whenever the line is not a valid decimal integer
at all.  No completeness of abort conditions is claimed: an accepted
out-of-range symbol can still abort the later decode of its sequence
(an `IndexError` inside `run_viterbi`, which this stream-level model
does not represent). -/
theorem c9_amended_parsing (n m : Nat) (a bm : Mat) :
    (∀ rest cur, mainLoop n m a bm ("0" :: rest) cur = mainLoop n m a bm rest cur) ∧
    (∀ s rest cur v, s ≠ "FFFFFFFF" → s ≠ "0" → parsePyInt s = some v →
      mainLoop n m a bm (s :: rest) cur = mainLoop n m a bm rest (cur ++ [v])) ∧
    (∀ s rest cur, s ≠ "FFFFFFFF" → parsePyInt s = none →
      mainLoop n m a bm (s :: rest) cur = none) := by
  refine ⟨mainLoop_pad n m a bm, ?_, ?_⟩
  · intro s rest cur v h1 h2 h3
    exact mainLoop_tok n m a bm s rest cur v h1 h2 h3
  · intro s rest cur h1 h3
    exact mainLoop_tok_bad n m a bm s rest cur h1 h3

/-- Witness for the amended C9 on concrete lines. -/
theorem c9_witness :
    mainLoop 1 1 cMat cMat ["0"] [] = mainLoop 1 1 cMat cMat [] [] ∧
    mainLoop 1 1 cMat cMat ["7"] [] = mainLoop 1 1 cMat cMat [] ([] ++ [7]) ∧
    mainLoop 1 1 cMat cMat ["abc"] [] = none :=
  ⟨(c9_amended_parsing 1 1 cMat cMat).1 [] [],
   (c9_amended_parsing 1 1 cMat cMat).2.1 "7" [] [] 7 (by decide) (by decide) (by decide),
   (c9_amended_parsing 1 1 cMat cMat).2.2 "abc" [] [] (by decide) (by decide)⟩

/-- Witness for C1 on a one-state model and the sequence `[1, 1]`. -/
theorem c1_witness :
    (∀ j, j < 1 → vTab 1 cMat cMat [1, 1] 0 j =
        cMat 0 (j : Int) + cMat (j : Int) (([1, 1] : List Int).getD 0 0 - 1) ∧
      bTab 1 cMat cMat [1, 1] 0 j = 0) ∧
    (∀ t j, 1 ≤ t → t < 2 → j < 1 →
      bTab 1 cMat cMat [1, 1] t j < 1 ∧
      (∀ i, i < 1 →
        vTab 1 cMat cMat [1, 1] (t - 1) i + cMat ((i : Int) + 1) (j : Int) ≤
          vTab 1 cMat cMat [1, 1] (t - 1) (bTab 1 cMat cMat [1, 1] t j) +
            cMat ((bTab 1 cMat cMat [1, 1] t j : Int) + 1) (j : Int)) ∧
      vTab 1 cMat cMat [1, 1] t j =
        (vTab 1 cMat cMat [1, 1] (t - 1) (bTab 1 cMat cMat [1, 1] t j) +
            cMat ((bTab 1 cMat cMat [1, 1] t j : Int) + 1) (j : Int)) +
          cMat (j : Int) (([1, 1] : List Int).getD t 0 - 1)) :=
  c1_dp_equations 1 1 cMat cMat [1, 1] (by decide) (by decide) (by decide)

/-- Witness for C2 on a one-state model and the sequence `[1, 1]`. -/
theorem c2_witness :
    (∀ t j, 1 ≤ t → t < 2 → j < 1 →
      (∀ i, i < bTab 1 cMat cMat [1, 1] t j →
        vTab 1 cMat cMat [1, 1] (t - 1) i + cMat ((i : Int) + 1) (j : Int) <
          vTab 1 cMat cMat [1, 1] (t - 1) (bTab 1 cMat cMat [1, 1] t j) +
            cMat ((bTab 1 cMat cMat [1, 1] t j : Int) + 1) (j : Int)) ∧
      ((∀ i, i < 1 →
          ¬ ((⊥ : Score) <
            vTab 1 cMat cMat [1, 1] (t - 1) i + cMat ((i : Int) + 1) (j : Int))) →
        bTab 1 cMat cMat [1, 1] t j = 0)) ∧
    (∃ fs, fs < 1 ∧
      (run_viterbi 1 1 cMat cMat [1, 1]).1.getD (2 - 1) 0 = fs + 1 ∧
      (run_viterbi 1 1 cMat cMat [1, 1]).2 = vTab 1 cMat cMat [1, 1] (2 - 1) fs ∧
      (∀ j, j < fs →
        vTab 1 cMat cMat [1, 1] (2 - 1) j < vTab 1 cMat cMat [1, 1] (2 - 1) fs) ∧
      ((∀ j, j < 1 → ¬ ((⊥ : Score) < vTab 1 cMat cMat [1, 1] (2 - 1) j)) → fs = 0)) :=
  c2_tie_break 1 1 cMat cMat [1, 1] (by decide) (by decide)

/-- Witness for C3 on a one-state model and the sequence `[1, 1]`. -/
theorem c3_witness :
    ∃ fs, fs < 1 ∧
      (∀ j, j < 1 →
        vTab 1 cMat cMat [1, 1] (2 - 1) j ≤ vTab 1 cMat cMat [1, 1] (2 - 1) fs) ∧
      (∀ j, j < fs →
        vTab 1 cMat cMat [1, 1] (2 - 1) j < vTab 1 cMat cMat [1, 1] (2 - 1) fs) ∧
      (run_viterbi 1 1 cMat cMat [1, 1]).2 = vTab 1 cMat cMat [1, 1] (2 - 1) fs ∧
      (run_viterbi 1 1 cMat cMat [1, 1]).1.length = 2 ∧
      (run_viterbi 1 1 cMat cMat [1, 1]).1.getD (2 - 1) 0 = fs + 1 ∧
      (∀ t, t + 1 < 2 →
        (run_viterbi 1 1 cMat cMat [1, 1]).1.getD t 0 =
          bTab 1 cMat cMat [1, 1] (t + 1)
            ((run_viterbi 1 1 cMat cMat [1, 1]).1.getD (t + 1) 0 - 1) + 1) :=
  c3_termination_backtrace 1 1 cMat cMat [1, 1] (by decide) (by decide)

/-- Witness for C10 on a one-state model and the sequence `[1, 1]`. -/
theorem c10_witness :
    (∀ t j, t < 2 → j < 1 → bTab 1 cMat cMat [1, 1] t j < 1) ∧
    (∀ s ∈ (run_viterbi 1 1 cMat cMat [1, 1]).1, 1 ≤ s ∧ s ≤ 1) :=
  c10_path_range 1 1 cMat cMat [1, 1] (by decide) (by decide) (by decide)
